import Mathlib

/-!
# EtherCard.h : BufferFiller and Stash

A shallow embedding of the `BufferFiller` cursor and of the `Stash` page
allocator declared in `EtherCard.h`.

* Bytes (`uint8_t`, `char`) are natural numbers below 256, addresses and
  page indices are natural numbers.
* RAM is a function from addresses to bytes; the chip's page memory is a
  function from page index and offset to bytes.
* `EtherCard.h` declares the `Stash` operations without bodies.  Their
  definitions below are marked "Modelled from the spec".  In that model a set
  bit of the bitmap means that the page is not free.
-/

namespace EtherCard

/-! ## The `WRITE_RESULT` / `WRITE_RETURN` macros -/

/-- The value produced by `WRITE_RETURN` for a given value of the `ARDUINO`
preprocessor symbol: `return 1;` (as `size_t`) when `ARDUINO >= 100`, and
nothing at all (`WRITE_RESULT` is `void`) otherwise. -/
def WRITE_RETURN (arduino : Nat) : Option Nat :=
  if arduino ≥ 100 then some 1 else none

/-! ## BufferFiller -/

/-- Replace the value of `f` at `i` by `v`. -/
def setAt {α : Type} (f : Nat → α) (i : Nat) (v : α) : Nat → α :=
  fun j => if j = i then v else f j

/-- The libc call `memcpy(dst, src, n)`: the `n` bytes of `src` are stored at
the addresses `dst, dst+1, ..., dst+n-1`; `src` is given by its contents. -/
def memcpy (ram : Nat → Nat) (dst : Nat) (src : List Nat) (n : Nat) : Nat → Nat :=
  fun a => if dst ≤ a ∧ a < dst + n then src.getD (a - dst) 0 else ram a

/-- The class `BufferFiller`: the two pointers `start` and `ptr`, together
with the RAM they point into. -/
structure BufferFiller where
  /-- The field `uint8_t *start`. -/
  start : Nat
  /-- The field `uint8_t *ptr`. -/
  ptr : Nat
  /-- The memory the pointers refer to. -/
  ram : Nat → Nat

namespace BufferFiller

/-- The constructor `BufferFiller (uint8_t* buf) : start (buf), ptr (buf) {}`. -/
def mk1 (ram : Nat → Nat) (buf : Nat) : BufferFiller :=
  { start := buf, ptr := buf, ram := ram }

/-- The method `emit_raw`: `{ memcpy(ptr, s, n); ptr += n; }`. -/
def emit_raw (bf : BufferFiller) (s : List Nat) (n : Nat) : BufferFiller :=
  { bf with ram := memcpy bf.ram bf.ptr s n, ptr := bf.ptr + n }

/-- The method `buffer`: `{ return start; }`. -/
def buffer (bf : BufferFiller) : Nat := bf.start

/-- The method `position`: `{ return ptr - start; }`, the pointer difference
converted to `uint16_t`. -/
def position (bf : BufferFiller) : Nat :=
  (((bf.ptr : Int) - (bf.start : Int)) % 65536).toNat

/-- The method `write`: `{ *ptr++ = v; WRITE_RETURN }`; the second component
is the returned value, if any. -/
def write (arduino : Nat) (bf : BufferFiller) (v : Nat) : BufferFiller × Option Nat :=
  ({ bf with ram := setAt bf.ram bf.ptr v, ptr := bf.ptr + 1 }, WRITE_RETURN arduino)

/-- The cursor after `n` successive calls `write(s[0])`, ..., `write(s[n-1])`,
as the specification words it. -/
def writeEach (arduino : Nat) (bf : BufferFiller) (s : List Nat) : BufferFiller :=
  s.foldl (fun b v => (write arduino b v).1) bf

end BufferFiller

/-- A call of one of the two appending methods of `BufferFiller`. -/
inductive FillerCall where
  /-- The call `write(v)`. -/
  | write (v : Nat)
  /-- The call `emit_raw(s, n)` with `s` holding `n` bytes. -/
  | emit_raw (s : List Nat) (n : Nat)

namespace FillerCall

/-- Number of bytes the call appends. -/
def count : FillerCall → Nat
  | write _ => 1
  | emit_raw _ n => n

/-- Perform the call on a cursor. -/
def apply (arduino : Nat) (bf : BufferFiller) : FillerCall → BufferFiller
  | write v => (bf.write arduino v).1
  | emit_raw s n => bf.emit_raw s n

end FillerCall

/-- Total number of bytes appended by a sequence of calls. -/
def totalCount (cs : List FillerCall) : Nat :=
  (cs.map FillerCall.count).sum

/-- Perform a sequence of calls, in order. -/
def runCalls (arduino : Nat) (bf : BufferFiller) (cs : List FillerCall) : BufferFiller :=
  cs.foldl (FillerCall.apply arduino) bf

/-! ## Layout of `StashHeader` and `Stash::Block` -/

/-- The members of the struct `StashHeader`, in declaration order. -/
inductive HeaderField where
  | count
  | first
  | last
  deriving DecidableEq, Repr

/-- The members of the anonymous struct inside the union of `Block`, in
declaration order. -/
inductive BlockField where
  | head
  | filler
  | tail
  | next
  deriving DecidableEq, Repr

/-- Size in bytes of a struct given by the list of its members and their
sizes.  All members here are `uint8_t` or arrays and structs of `uint8_t`, so
no padding is inserted. -/
def sizeofLayout {α : Type} (l : List (α × Nat)) : Nat :=
  (l.map Prod.snd).sum

/-- Offset of member `f`: the sizes of the members declared before it, added
up. -/
def offsetOf {α : Type} [DecidableEq α] : List (α × Nat) → α → Nat
  | [], _ => 0
  | (g, sz) :: rest, f => if g = f then 0 else sz + offsetOf rest f

/-- The struct `StashHeader`: `uint8_t count; uint8_t first; uint8_t last;`. -/
def headerLayout : List (HeaderField × Nat) :=
  [(.count, 1), (.first, 1), (.last, 1)]

/-- The anonymous struct of `Block`:
`StashHeader head; uint8_t filler[59]; uint8_t tail; uint8_t next;`. -/
def blockLayout : List (BlockField × Nat) :=
  [(.head, sizeofLayout headerLayout), (.filler, 59), (.tail, 1), (.next, 1)]

/-- Size of the union member `uint8_t bytes[64]`. -/
def bytesSize : Nat := 64

/-- Size of the union member `uint16_t words[32]`. -/
def wordsSize : Nat := 32 * 2

/-- Size of the union of `Block`: the largest of its three members. -/
def unionSize : Nat := max bytesSize (max wordsSize (sizeofLayout blockLayout))

/-- Offset of the member `uint8_t bnum`, which follows the union. -/
def bnumOffset : Nat := unionSize

/-- The struct `Stash::Block`: the 64 bytes of the union, seen through the
member `bytes`, and the member `bnum`. -/
structure Block where
  /-- The union member `bytes[64]`. -/
  bytes : Nat → Nat
  /-- The member `bnum`. -/
  bnum : Nat

namespace Block

/-- The union member `tail`: the byte of the union at the offset of `tail`. -/
def tail (b : Block) : Nat := b.bytes (offsetOf blockLayout .tail)

/-- The union member `next`: the byte of the union at the offset of `next`. -/
def next (b : Block) : Nat := b.bytes (offsetOf blockLayout .next)

/-- Assignment to the union member `tail`. -/
def setTail (b : Block) (v : Nat) : Block :=
  { b with bytes := setAt b.bytes (offsetOf blockLayout .tail) v }

/-- Assignment to the union member `next`. -/
def setNext (b : Block) (v : Nat) : Block :=
  { b with bytes := setAt b.bytes (offsetOf blockLayout .next) v }

/-- Assignment `bytes[i] = v`. -/
def setByte (b : Block) (i v : Nat) : Block :=
  { b with bytes := setAt b.bytes i v }

end Block

/-! ## Stash: fields, constructor, `write` -/

/-- The struct `StashHeader`. -/
structure StashHeader where
  /-- Number of allocated pages. -/
  count : Nat
  /-- First allocated page. -/
  first : Nat
  /-- Last allocated page. -/
  last : Nat

/-- The non-static fields of the class `Stash`: those of its base
`StashHeader`, then `curr` and `offs`. -/
structure Stash extends StashHeader where
  /-- Current page. -/
  curr : Nat
  /-- Current offset in page. -/
  offs : Nat

/-- Number of entries of the static array `map[256/8]`. -/
def mapSize : Nat := 256 / 8

/-- The state shared by all stashes: the static members `bufs[2]` and
`map[256/8]` of `Stash`, and the page memory of the chip. -/
structure Shared where
  /-- Page memory of the chip: page index, then offset in the page. -/
  chip : Nat → Nat → Nat
  /-- The window `bufs[0]`, used for writing. -/
  bufs0 : Block
  /-- The window `bufs[1]`, used for reading. -/
  bufs1 : Block
  /-- The array `map`, by byte index. -/
  map : Nat → Nat

namespace Stash

/-- The constructor `Stash () : curr (0) { first = 0; }`, run on storage with
arbitrary prior content. -/
def ctor (g : Shared) (prior : Stash) : Shared × Stash :=
  (g, { prior with curr := 0, first := 0 })

/-- The method `write`: `{ put(b); WRITE_RETURN }`, for any state type and
any `put`; the second component is the returned value, if any. -/
def write {σ : Type} (arduino : Nat) (put : σ → Nat → σ) (st : σ) (b : Nat) :
    σ × Option Nat :=
  (put st b, WRITE_RETURN arduino)

end Stash

/-! ## Stash: the free-page bitmap -/

/-- Modelled from the spec: the byte of `map` holding the bit of page `b`
(missing: the bodies of `allocBlock` and `freeBlock`, which address `map`). -/
def mapByte (b : Nat) : Nat := b / 8

/-- Modelled from the spec: the position of the bit of page `b` inside its byte
of `map` (missing: the bodies of `allocBlock` and `freeBlock`). -/
def mapBit (b : Nat) : Nat := b % 8

/-- Modelled from the spec: whether the bit of page `b` is set in the bitmap, a
"256-bit set recording allocated pages" (missing: the code reading `map`). -/
def isSet (map : Nat → Nat) (b : Nat) : Bool :=
  (map (mapByte b)).testBit (mapBit b)

/-- Modelled from the spec: set the bit of page `b`, recording it as allocated
(missing: the part of `allocBlock` that updates `map`). -/
def markBlock (map : Nat → Nat) (b : Nat) : Nat → Nat :=
  setAt map (mapByte b) (map (mapByte b) ||| 2 ^ mapBit b)

/-- Modelled from the spec: `freeBlock(block)` clears the bit of the page
(missing: the body of `freeBlock`). -/
def freeBlock (map : Nat → Nat) (b : Nat) : Nat → Nat :=
  setAt map (mapByte b) (map (mapByte b) ^^^ (map (mapByte b) &&& 2 ^ mapBit b))

/-- Modelled from the spec: the "lowest free index scan" over the 256 bits
(missing: the body of `allocBlock`). -/
def lowestFree (map : Nat → Nat) : Option Nat :=
  (List.range 256).find? (fun b => !isSet map b)

/-- Modelled from the spec: `allocBlock()` takes the lowest free page and marks
it; without a free page it returns the sentinel 0 (missing: the body of
`allocBlock`).  The result is the new bitmap and the page index. -/
def allocBlock (map : Nat → Nat) : (Nat → Nat) × Nat :=
  match lowestFree map with
  | some b => (markBlock map b, b)
  | none => (map, 0)

/-- Number of unset bits among the 256 bits of the bitmap. -/
def freePages (map : Nat → Nat) : Nat :=
  (List.range 256).countP (fun b => !isSet map b)

/-- Modelled from the spec: `freeCount()` is the "number of unset bits in the
bitmap", returned as `uint8_t` (missing: the body of `freeCount`). -/
def freeCount (g : Shared) : Nat := freePages g.map % 256

/-- Modelled from the spec: the loop of `initMap`, freeing the pages
`b, b-1, ..., 1` (missing: the body of `initMap`). -/
def initMapLoop (map : Nat → Nat) : Nat → (Nat → Nat)
  | 0 => map
  | b + 1 => initMapLoop (freeBlock map (b + 1)) b

/-- Modelled from the spec: `initMap(last)` "resets the bitmap, marking pages
[1, last] as free and reserving page 0" (missing: the body of `initMap`): every
bit is set, then the bits of pages 1 to `last` are cleared. -/
def initMap (g : Shared) (last : Nat) : Shared :=
  { g with map := initMapLoop (fun _ => 255) last }

/-! ## Stash: windows and page memory -/

/-- Modelled from the spec: `writePage(index, bytes)` of the page store
(missing: the chip driver). -/
def writePage (chip : Nat → Nat → Nat) (idx : Nat) (bytes : Nat → Nat) : Nat → Nat → Nat :=
  setAt chip idx bytes

/-- Modelled from the spec: `fetchByte(blk, off)` reads one byte of a page, from
the write window when it caches that page, else from the page store (missing:
the body of `fetchByte`). -/
def fetchByte (g : Shared) (blk off : Nat) : Nat :=
  if blk = g.bufs0.bnum then g.bufs0.bytes off else g.chip blk off

/-- Modelled from the spec: `load(idx, blk)` makes window `idx` a cached copy of
page `blk`, read from the page store (missing: the body of `load`).  The write
window (`idx = 0`) is written back to the page store before it is replaced; a
window that already caches `blk` is kept. -/
def load (g : Shared) (idx blk : Nat) : Shared :=
  if idx = 0 then
    if blk = g.bufs0.bnum then g
    else
      let chip1 := writePage g.chip g.bufs0.bnum g.bufs0.bytes
      { g with chip := chip1, bufs0 := { bytes := chip1 blk, bnum := blk } }
  else
    if blk = g.bufs1.bnum then g
    else { g with bufs1 := { bytes := g.chip blk, bnum := blk } }

namespace Stash

/-- Modelled from the spec: `create()` "allocates one free page (lowest free
index scan), sets it as both first and last, count = 1", and "fails (returns a
sentinel invalid handle) if no free page exists" (missing: the body of
`create`).  The result is the shared state, the handle and the returned page
index, 0 on failure. -/
def create (g : Shared) (h : Stash) : Shared × Stash × Nat :=
  let a := allocBlock g.map
  if a.2 = 0 then ({ g with map := a.1 }, h, 0)
  else
    let g1 := load { g with map := a.1 } 0 a.2
    ({ g1 with bufs0 := (g1.bufs0.setTail 0).setNext 0 },
     { count := 1, first := a.2, last := a.2, curr := a.2, offs := 0 }, a.2)

/-- Modelled from the spec: `put(byte)` "appends one byte at the current write
offset within the window for last.  When the window fills (62 payload bytes
consumed), allocates a new page, links it via the previous page's next field,
updates last, resets offset, and continues"; an allocation failure drops the
byte (missing: the body of `put`).  The write offset is the `tail` byte of the
window. -/
def put (g : Shared) (h : Stash) (c : Nat) : Shared × Stash :=
  let g1 := load g 0 h.last
  let t := g1.bufs0.tail
  if t < 62 then
    ({ g1 with bufs0 := (g1.bufs0.setByte t c).setTail (t + 1) }, h)
  else
    let a := allocBlock g1.map
    if a.2 = 0 then ({ g1 with map := a.1 }, h)
    else
      let g2 := load { g1 with map := a.1, bufs0 := g1.bufs0.setNext a.2 } 0 a.2
      ({ g2 with bufs0 := ((g2.bufs0.setNext 0).setByte 0 c).setTail 1 },
       { h with last := a.2, count := (h.count + 1) % 256 })

/-- Modelled from the spec: `save()` "flushes the cached write window back to
PageStore and finalizes the tail marker (valid byte count) of the last page"
(missing: the body of `save`). -/
def save (g : Shared) (h : Stash) : Shared × Stash :=
  let g1 := load g 0 h.last
  ({ g1 with chip := writePage g1.chip g1.bufs0.bnum g1.bufs0.bytes }, h)

/-- Modelled from the spec: `open(pageIndex)` "attaches a handle in read mode at
a previously saved chain's first page; does not scan" (missing: the body of
`open`; named `openPage`, `open` being a keyword).  The read window is filled
with the page as the page store holds it; the result includes the returned page
index. -/
def openPage (g : Shared) (h : Stash) (blk : Nat) : Shared × Stash × Nat :=
  ({ g with bufs1 := { bytes := g.chip blk, bnum := blk } },
   { h with first := blk, curr := blk, offs := 0 }, blk)

/-- Modelled from the spec: `get()`, the "sequential read cursor" (missing: the
body of `get`).  At the end of the chain (no next page and offset at `tail`) it
returns 0; after the last payload byte of a page it moves to the next page. -/
def get (g : Shared) (h : Stash) : Shared × Stash × Nat :=
  let g1 := load g 1 h.curr
  let r := g1.bufs1
  if r.next = 0 ∧ r.tail ≤ h.offs then (g1, h, 0)
  else
    let b := r.bytes h.offs
    let o := (h.offs + 1) % 256
    if 62 ≤ o ∧ r.next ≠ 0 then (g1, { h with curr := r.next, offs := 0 }, b)
    else (g1, { h with offs := o }, b)

/-- Modelled from the spec: the walk of `size` over the pages of the chain
(missing: the body of `size`); `none` when `fuel` pages did not reach the end
of the chain. -/
def sizeWalk (g : Shared) : Nat → Nat → Option Nat
  | 0, _ => none
  | fuel + 1, blk =>
    if fetchByte g blk (offsetOf blockLayout .next) = 0 then
      some (fetchByte g blk (offsetOf blockLayout .tail))
    else (sizeWalk g fuel (fetchByte g blk (offsetOf blockLayout .next))).map (62 + ·)

/-- Modelled from the spec: `size()` "must walk pages and sum payload lengths
(full pages contribute a fixed 62 bytes, the last page contributes its tail
value)", as `uint16_t` (missing: the body of `size`).  A page index is a
`uint8_t`, so a walk longer than 256 pages never ends: the result is `none`. -/
def size (g : Shared) (h : Stash) : Option Nat :=
  (sizeWalk g 256 h.first).map (· % 65536)

/-- The bytes returned by `n` successive calls of `get`, and the state after
them. -/
def getN : Nat → Shared → Stash → List Nat × Shared × Stash
  | 0, g, h => ([], g, h)
  | n + 1, g, h =>
    let r := get g h
    let rest := getN n r.1 r.2.1
    (r.2.2 :: rest.1, rest.2)

/-- The state after `put` of each byte of `data`, in order. -/
def putAll (g : Shared) (h : Stash) (data : List Nat) : Shared × Stash :=
  data.foldl (fun s c => put s.1 s.2 c) (g, h)

end Stash

/-! ## Chains of pages -/

/-- In the page contents `v`, the pages `ps` are linked by their `next` bytes
(offset 63): the chain starts at `first`, ends at `last`, whose `next` is 0,
and no page of it is page 0.  The empty chain has `first = 0`. -/
def Linked (v : Nat → Nat → Nat) : List Nat → Nat → Nat → Prop
  | [], first, _ => first = 0
  | [p], first, last => first = p ∧ p ≠ 0 ∧ v p 63 = 0 ∧ last = p
  | p :: q :: rest, first, last =>
    first = p ∧ p ≠ 0 ∧ v p 63 = q ∧ Linked v (q :: rest) q last

/-- In the page contents `v`, the pages `ps` hold the bytes `data`: every
page but the last holds 62 of them at offsets 0 to 61, the last page holds the
remaining ones and their number in its `tail` byte (offset 62). -/
def Holds (v : Nat → Nat → Nat) : List Nat → List Nat → Prop
  | [], data => data = []
  | [p], data =>
    v p 62 = data.length ∧ data.length ≤ 62 ∧ ∀ j, j < data.length → v p j = data.getD j 0
  | p :: q :: rest, data =>
    62 ≤ data.length ∧ (∀ j, j < 62 → v p j = data.getD j 0) ∧
      Holds v (q :: rest) (data.drop 62)

/-- Number of pages a chain needs for `n` bytes: one page per 62 bytes, and at
least the page allocated by `create`. -/
def pagesNeeded (n : Nat) : Nat := max 1 ((n + 61) / 62)

/-- The state of a stash being written: its chain `ps` holds `data`, the pages
of the chain are distinct and marked in the bitmap, page 0 is reserved, and
the free pages and the pages of the chain add up to `total`. -/
def Writing (g : Shared) (h : Stash) (ps data : List Nat) (total : Nat) : Prop :=
  Linked (fetchByte g) ps h.first h.last ∧ Holds (fetchByte g) ps data ∧ ps ≠ [] ∧
  ps.Nodup ∧ (∀ p, p ∈ ps → p < 256 ∧ isSet g.map p = true) ∧ isSet g.map 0 = true ∧
  freePages g.map + ps.length = total

/-- The state of a stash being read: in the page store, the chain `ps` from the
current page on holds `data`, of which `offs` bytes are consumed, and the read
window, when it caches the current page, agrees with the page store. -/
def Reading (g : Shared) (h : Stash) (ps data : List Nat) : Prop :=
  ∃ l, Linked g.chip ps h.curr l ∧ Holds g.chip ps data ∧ ps ≠ [] ∧
    ps.Nodup ∧ h.offs ≤ data.length ∧ (2 ≤ ps.length → h.offs < 62) ∧
    (g.bufs1.bnum = h.curr → ∀ off, g.bufs1.bytes off = g.chip h.curr off)

/-- The round trip of the specification: `create`, `put` of each byte of
`data`, `save`, then `open` (on a handle `r`) of the page index returned by
`create`, as many `get` as there are bytes, and `size`.  The result is the
page index returned by `create`, the bytes read and the size. -/
def roundTrip (g : Shared) (h r : Stash) (data : List Nat) : Nat × List Nat × Option Nat :=
  let w := Stash.create g h
  let p := Stash.putAll w.1 w.2.1 data
  let s := Stash.save p.1 p.2
  let o := Stash.openPage s.1 r w.2.2
  let t := Stash.getN data.length o.1 o.2.1
  (w.2.2, t.1, Stash.size t.2.1 t.2.2)

/-- A concrete shared state for the examples: page memory filled with 255,
windows and bitmap zeroed as static storage is at start-up. -/
def startShared : Shared :=
  { chip := fun _ _ => 255, bufs0 := ⟨fun _ => 0, 0⟩, bufs1 := ⟨fun _ => 0, 0⟩, map := fun _ => 0 }

/-- A concrete handle for the examples, as left by the constructor `Stash()` on
zeroed storage. -/
def startStash : Stash := (Stash.ctor startShared ⟨⟨0, 0, 0⟩, 0, 0⟩).2

/-! ## A system of stashes -/

namespace System

end System

/-- The part a handle plays, by the calls made on it so far: `detached` when it
holds no live chain (never attached, released, or its chain was released
through another handle), `writer` when it created the chain it holds, `reader`
when it was attached to it by `open`. -/
inductive Role where
  | detached
  | writer
  | reader
  deriving DecidableEq, Repr

namespace System

end System

/-- Handle number `j` is `h`, with role `r`, and holds a chain. -/
def Attached (hs : List Stash) (m : List Role) (j : Nat) (h : Stash) (r : Role) : Prop :=
  hs[j]? = some h ∧ m[j]? = some r ∧ r ≠ Role.detached

/-- A sequence of calls advances `ptr` by its byte count and keeps `start`. -/
theorem runCalls_ptr_start (arduino : Nat) (cs : List FillerCall) :
    ∀ bf : BufferFiller, (runCalls arduino bf cs).ptr = bf.ptr + totalCount cs ∧
      (runCalls arduino bf cs).start = bf.start := by
  induction cs with
  | nil => intro bf; simp [runCalls, totalCount]
  | cons c cs ih =>
    intro bf
    have h := ih (FillerCall.apply arduino bf c)
    simp only [runCalls, List.foldl_cons, totalCount, List.map_cons, List.sum_cons] at h ⊢
    cases c with
    | write v =>
      simp only [FillerCall.apply, BufferFiller.write, FillerCall.count] at h ⊢
      omega
    | emit_raw s n =>
      simp only [FillerCall.apply, BufferFiller.emit_raw, FillerCall.count] at h ⊢
      omega

/-- With `ptr` at `k` bytes after `start`, `position()` is `k` as a `uint16_t`. -/
theorem position_of_offset (bf : BufferFiller) (k : Nat) (hp : bf.ptr = bf.start + k) :
    bf.position = k % 65536 := by
  unfold BufferFiller.position
  rw [hp]
  omega

/-- C5: a cursor constructed over a buffer reports position 0, and after any
sequence of `write` and `emit_raw` calls appending fewer than 2^16 bytes in
total, `position()` is that total and `buffer()` is still the start the cursor
was constructed with. -/
theorem position_counts_bytes_written (arduino : Nat) (ram : Nat → Nat) (buf : Nat)
    (cs : List FillerCall) (hk : totalCount cs < 2 ^ 16) :
    (BufferFiller.mk1 ram buf).position = 0 ∧
    (runCalls arduino (BufferFiller.mk1 ram buf) cs).position = totalCount cs ∧
    (runCalls arduino (BufferFiller.mk1 ram buf) cs).buffer = buf := by
  have h := runCalls_ptr_start arduino cs (BufferFiller.mk1 ram buf)
  refine ⟨?_, ?_, ?_⟩
  · rw [position_of_offset (BufferFiller.mk1 ram buf) 0 (by simp [BufferFiller.mk1])]
  · rw [position_of_offset _ (totalCount cs) (by rw [h.1, h.2]; rfl)]
    exact Nat.mod_eq_of_lt hk
  · simpa [BufferFiller.buffer, BufferFiller.mk1] using h.2

/-- Witness of C5: a `write`, an `emit_raw` of three bytes and another `write`
leave the cursor at position 5. -/
theorem position_counts_bytes_written_witness :
    (runCalls 100 (BufferFiller.mk1 (fun _ => 0) 40)
      [.write 7, .emit_raw [1, 2, 3] 3, .write 9]).position = 5 :=
  (position_counts_bytes_written 100 (fun _ => 0) 40
    [.write 7, .emit_raw [1, 2, 3] 3, .write 9] (by decide)).2.1

/-- C6: with the cursor `p` bytes after `start`, `emit_raw(s, n)` stores the
`n` bytes of `s` at offsets `p` to `p+n-1`, moves the cursor to offset `p+n` and
changes no other byte; `write(v)` stores `v` at offset `p`, moves the cursor to
offset `p+1` and changes no other byte.  `position()` then reports the new
offset as a `uint16_t`.  Nothing depends on a capacity. -/
theorem append_frame (arduino : Nat) (bf : BufferFiller) (p : Nat) (s : List Nat) (n v : Nat)
    (hp : bf.ptr = bf.start + p) (hn : s.length = n) :
    ((∀ i, i < n → s[i]? = some ((bf.emit_raw s n).ram (bf.start + p + i))) ∧
      (bf.emit_raw s n).ptr = bf.start + (p + n) ∧
      (bf.emit_raw s n).start = bf.start ∧
      (∀ a, a < bf.start + p ∨ bf.start + p + n ≤ a → (bf.emit_raw s n).ram a = bf.ram a) ∧
      (bf.emit_raw s n).position = (p + n) % 65536) ∧
    ((bf.write arduino v).1.ram (bf.start + p) = v ∧
      (bf.write arduino v).1.ptr = bf.start + (p + 1) ∧
      (bf.write arduino v).1.start = bf.start ∧
      (∀ a, a ≠ bf.start + p → (bf.write arduino v).1.ram a = bf.ram a) ∧
      (bf.write arduino v).1.position = (p + 1) % 65536) := by
  refine ⟨⟨?_, ?_, ?_, ?_, ?_⟩, ?_, ?_, ?_, ?_, ?_⟩
  · intro i hi
    have hlt : i < s.length := by omega
    simp only [BufferFiller.emit_raw, memcpy, hp]
    rw [if_pos (by omega)]
    have : bf.start + p + i - (bf.start + p) = i := by omega
    rw [this, List.getD_eq_getElem?_getD, List.getElem?_eq_getElem hlt]
    simp
  · simp only [BufferFiller.emit_raw, hp]; omega
  · simp [BufferFiller.emit_raw]
  · intro a ha
    simp only [BufferFiller.emit_raw, memcpy, hp]
    rw [if_neg (by omega)]
  · exact position_of_offset _ (p + n) (by simp only [BufferFiller.emit_raw, hp]; omega)
  · simp [BufferFiller.write, setAt, hp]
  · simp only [BufferFiller.write, hp]; omega
  · simp [BufferFiller.write]
  · intro a ha
    simp only [BufferFiller.write, setAt, hp]
    rw [if_neg ha]
  · exact position_of_offset _ (p + 1) (by simp only [BufferFiller.write, hp]; omega)

/-- Witness of C6: three bytes emitted at offset 2 of a buffer at address 40. -/
theorem append_frame_witness :
    [1, 2, 3][1]? = some
      (((⟨40, 42, fun _ => 0⟩ : BufferFiller).emit_raw [1, 2, 3] 3).ram (40 + 2 + 1)) ∧
    ((⟨40, 42, fun _ => 0⟩ : BufferFiller).emit_raw [1, 2, 3] 3).ptr = 40 + (2 + 3) :=
  ⟨(append_frame 100 ⟨40, 42, fun _ => 0⟩ 2 [1, 2, 3] 3 7 rfl rfl).1.1 1 (by decide),
   (append_frame 100 ⟨40, 42, fun _ => 0⟩ 2 [1, 2, 3] 3 7 rfl rfl).1.2.1⟩

/-- Copying `x :: xs` is storing `x` and copying `xs` one address further. -/
theorem memcpy_cons (ram : Nat → Nat) (dst x : Nat) (xs : List Nat) (k : Nat) :
    memcpy ram dst (x :: xs) (k + 1) = memcpy (setAt ram dst x) (dst + 1) xs k := by
  funext a
  simp only [memcpy, setAt]
  by_cases h1 : a = dst
  · subst h1
    simp
  · by_cases h2 : dst ≤ a ∧ a < dst + (k + 1)
    · have h3 : dst + 1 ≤ a ∧ a < dst + 1 + k := by omega
      rw [if_pos h2, if_pos h3]
      have : a - dst = (a - (dst + 1)) + 1 := by omega
      rw [this]
      simp
    · have h3 : ¬ (dst + 1 ≤ a ∧ a < dst + 1 + k) := by omega
      rw [if_neg h2, if_neg h3, if_neg h1]

theorem memcpy_zero (ram : Nat → Nat) (dst : Nat) (s : List Nat) :
    memcpy ram dst s 0 = ram := by
  funext a
  simp only [memcpy]
  rw [if_neg (by omega)]

/-- C8: `emit_raw(s, n)` for a string `s` of `n` bytes leaves the same cursor
and the same memory as the `n` calls `write(s[0])`, ..., `write(s[n-1])`. -/
theorem emit_raw_eq_writeEach (arduino : Nat) (s : List Nat) :
    ∀ (bf : BufferFiller) (n : Nat), s.length = n →
      bf.emit_raw s n = bf.writeEach arduino s := by
  induction s with
  | nil =>
    intro bf n hn
    subst hn
    simp [BufferFiller.emit_raw, BufferFiller.writeEach, memcpy_zero]
  | cons x xs ih =>
    intro bf n hn
    subst hn
    have h := ih (bf.write arduino x).1 xs.length rfl
    simp only [BufferFiller.writeEach, List.foldl_cons] at h ⊢
    rw [← h]
    simp only [BufferFiller.emit_raw, BufferFiller.write, List.length_cons, memcpy_cons]
    simp [Nat.add_assoc, Nat.add_comm 1]

/-- Witness of C8: three bytes emitted at once or one by one. -/
theorem emit_raw_eq_writeEach_witness :
    (⟨40, 42, fun _ => 0⟩ : BufferFiller).emit_raw [1, 2, 3] 3 =
      (⟨40, 42, fun _ => 0⟩ : BufferFiller).writeEach 100 [1, 2, 3] :=
  emit_raw_eq_writeEach 100 [1, 2, 3] ⟨40, 42, fun _ => 0⟩ 3 rfl

/-! ## Layout, constructor, `write` -/

/-- C4: the page image of a `Block` is 64 bytes; its members `head` and
`filler` span offsets 0 to 61, `tail` is the byte at offset 62 and `next` the
byte at offset 63, so `b.tail = b.bytes[62]` and `b.next = b.bytes[63]` for
every `b`.  The member `bnum` lies after the page image, at offset 64. -/
theorem block_page_layout (b : Block) :
    bytesSize = 64 ∧ unionSize = 64 ∧ sizeofLayout blockLayout = 64 ∧
    offsetOf blockLayout .head = 0 ∧ offsetOf blockLayout .filler = 3 ∧
    offsetOf blockLayout .filler + 59 = 62 ∧
    offsetOf blockLayout .tail = 62 ∧ offsetOf blockLayout .next = 63 ∧
    b.tail = b.bytes 62 ∧ b.next = b.bytes 63 ∧ bnumOffset = 64 := by
  refine ⟨rfl, by decide, by decide, by decide, by decide, by decide, by decide, by decide,
    rfl, rfl, by decide⟩

/-- C7: `map` has 32 bytes, that is 256 bits; for every page index below 256
the byte position `b / 8` is below 32 and the bit position `b % 8` is below 8,
and two page indices with the same byte and bit position are equal. -/
theorem bitmap_covers_pages :
    mapSize = 32 ∧ mapSize * 8 = 256 ∧
    ∀ b, b < 256 → mapByte b < mapSize ∧ mapBit b < 8 ∧
      ∀ c, c < 256 → mapByte c = mapByte b → mapBit c = mapBit b → c = b := by
  refine ⟨rfl, rfl, ?_⟩
  intro b hb
  simp only [mapByte, mapBit, mapSize]
  refine ⟨by omega, by omega, ?_⟩
  intro c _ h1 h2
  omega

/-- Witness of C7: page 255 is addressed by bit 7 of byte 31. -/
theorem bitmap_covers_pages_witness :
    mapByte 255 < mapSize ∧ mapBit 255 < 8 ∧ (255 : Nat) < 256 ∧ mapByte 247 ≠ mapByte 255 :=
  ⟨(bitmap_covers_pages.2.2 255 (by decide)).1, (bitmap_covers_pages.2.2 255 (by decide)).2.1,
    by decide,
    fun h => absurd ((bitmap_covers_pages.2.2 255 (by decide)).2.2 247 (by decide) h rfl)
      (by decide)⟩

/-- Counterexample to C9: built for Arduino 0022 (`ARDUINO` below 100), `write`
returns nothing, so it does not return 1 for every build. -/
theorem write_not_always_one :
    ¬ ∀ (arduino : Nat) (st : Shared × Stash) (b : Nat),
      Stash.write arduino (fun s c => Stash.put s.1 s.2 c) st b =
        (Stash.put st.1 st.2 b, some 1) := by
  intro h
  have h1 := congrArg Prod.snd
    (h 22 (⟨fun _ _ => 0, ⟨fun _ => 0, 0⟩, ⟨fun _ => 0, 0⟩, fun _ => 0⟩, ⟨⟨0, 0, 0⟩, 0, 0⟩) 65)
  simp [Stash.write, WRITE_RETURN] at h1

/-- C9, amended: `write(b)` has exactly the effect of `put(b)`, whatever `put`
is, and returns 1 when `ARDUINO >= 100`; for a smaller `ARDUINO` it returns
nothing. -/
theorem write_is_put {σ : Type} (arduino : Nat) (put : σ → Nat → σ) (st : σ) (b : Nat) :
    Stash.write arduino put st b =
      (put st b, if 100 ≤ arduino then some 1 else none) := by
  simp [Stash.write, WRITE_RETURN]

/-- C10: the constructor `Stash()` sets `first` and `curr` to 0, leaves
`count`, `last` and `offs` as they were in the storage, and leaves the bitmap,
the windows and the page memory alone. -/
theorem ctor_sets_first_curr_only (g : Shared) (prior : Stash) :
    (Stash.ctor g prior).2.first = 0 ∧ (Stash.ctor g prior).2.curr = 0 ∧
    (Stash.ctor g prior).2.count = prior.count ∧
    (Stash.ctor g prior).2.last = prior.last ∧
    (Stash.ctor g prior).2.offs = prior.offs ∧
    (Stash.ctor g prior).1 = g :=
  ⟨rfl, rfl, rfl, rfl, rfl, rfl⟩

/-! ## The bitmap -/

theorem mapPos_inj (b c : Nat) : (mapByte c = mapByte b ∧ mapBit c = mapBit b) ↔ c = b := by
  simp only [mapByte, mapBit]
  omega

/-- Marking page `b` sets its bit and no other. -/
theorem isSet_markBlock (m : Nat → Nat) (b c : Nat) :
    isSet (markBlock m b) c = (isSet m c || decide (c = b)) := by
  simp only [isSet, markBlock, setAt]
  by_cases h1 : mapByte c = mapByte b
  · rw [if_pos h1, Nat.testBit_or, Nat.testBit_two_pow, h1]
    by_cases h2 : mapBit b = mapBit c
    · have : c = b := (mapPos_inj b c).1 ⟨h1, h2.symm⟩
      simp [h2, this]
    · have : c ≠ b := fun h => h2 (by rw [h])
      simp [h2, this]
  · have : c ≠ b := fun h => h1 (by rw [h])
    simp [h1, this]

/-- Freeing page `b` clears its bit and no other. -/
theorem isSet_freeBlock (m : Nat → Nat) (b c : Nat) :
    isSet (freeBlock m b) c = (isSet m c && !decide (c = b)) := by
  simp only [isSet, freeBlock, setAt]
  by_cases h1 : mapByte c = mapByte b
  · rw [if_pos h1, Nat.testBit_xor, Nat.testBit_and, Nat.testBit_two_pow, h1]
    by_cases h2 : mapBit b = mapBit c
    · have : c = b := (mapPos_inj b c).1 ⟨h1, h2.symm⟩
      simp [h2, this]
    · have : c ≠ b := fun h => h2 (by rw [h])
      simp [h2, this]
  · have : c ≠ b := fun h => h1 (by rw [h])
    simp [h1, this]

theorem lowestFree_some {m : Nat → Nat} {b : Nat} (h : lowestFree m = some b) :
    b < 256 ∧ isSet m b = false := by
  unfold lowestFree at h
  have h1 := List.mem_of_find?_eq_some h
  have h2 := List.find?_some h
  simp only [List.mem_range] at h1
  simpa using And.intro h1 h2

theorem lowestFree_none {m : Nat → Nat} (h : lowestFree m = none) :
    ∀ b, b < 256 → isSet m b = true := by
  unfold lowestFree at h
  rw [List.find?_eq_none] at h
  intro b hb
  have := h b (List.mem_range.2 hb)
  simpa using this

theorem lowestFree_of_full {m : Nat → Nat} (h : ∀ b, b < 256 → isSet m b = true) :
    lowestFree m = none := by
  unfold lowestFree
  rw [List.find?_eq_none]
  intro b hb
  simp [h b (List.mem_range.1 hb)]

/-- Two predicates that differ at one element of a duplicate-free list have
counts that differ by one. -/
theorem countP_flip {p q : Nat → Bool} {b : Nat} (hp : p b = true) (hq : q b = false)
    (hpq : ∀ x, x ≠ b → q x = p x) :
    ∀ l : List Nat, l.Nodup → b ∈ l → l.countP q + 1 = l.countP p := by
  intro l
  induction l with
  | nil => intro _ h; simp at h
  | cons a l ih =>
    intro hnd hmem
    rw [List.nodup_cons] at hnd
    by_cases hab : a = b
    · subst hab
      have hrest : l.countP q = l.countP p := by
        apply List.countP_congr
        intro x hx
        have : x ≠ a := fun h => hnd.1 (h ▸ hx)
        rw [hpq x this]
      rw [List.countP_cons, List.countP_cons, hrest, hq, hp]
      simp
    · have hmem1 : b ∈ l := by
        rcases List.mem_cons.1 hmem with h | h
        · exact absurd h.symm hab
        · exact h
      have := ih hnd.2 hmem1
      rw [List.countP_cons, List.countP_cons, hpq a hab]
      omega

/-- Marking a free page lowers the number of free pages by one. -/
theorem freePages_markBlock {m : Nat → Nat} {b : Nat} (hb : b < 256) (hfree : isSet m b = false) :
    freePages (markBlock m b) + 1 = freePages m := by
  unfold freePages
  apply countP_flip (b := b) _ _ _ _ (List.nodup_range 256) (List.mem_range.2 hb)
  · simp [hfree]
  · simp [isSet_markBlock]
  · intro x hx
    simp [isSet_markBlock, hx]

/-- Freeing a marked page raises the number of free pages by one. -/
theorem freePages_freeBlock {m : Nat → Nat} {b : Nat} (hb : b < 256) (hset : isSet m b = true) :
    freePages (freeBlock m b) = freePages m + 1 := by
  unfold freePages
  symm
  apply countP_flip (b := b) _ _ _ _ (List.nodup_range 256) (List.mem_range.2 hb)
  · simp [isSet_freeBlock]
  · simp [hset]
  · intro x hx
    simp [isSet_freeBlock, hx]

theorem freePages_pos_iff (m : Nat → Nat) :
    0 < freePages m ↔ ∃ b, b < 256 ∧ isSet m b = false := by
  unfold freePages
  rw [List.countP_pos_iff]
  constructor
  · rintro ⟨a, ha, hp⟩
    exact ⟨a, List.mem_range.1 ha, by simpa using hp⟩
  · rintro ⟨a, ha, hp⟩
    exact ⟨a, List.mem_range.2 ha, by simpa using hp⟩

theorem freePages_le (m : Nat → Nat) (h0 : isSet m 0 = true) : freePages m ≤ 255 := by
  have h1 : freePages (freeBlock m 0) = freePages m + 1 := freePages_freeBlock (by decide) h0
  have h2 : freePages (freeBlock m 0) ≤ 256 := by
    unfold freePages
    exact (List.countP_le_length _).trans (by simp)
  omega

theorem allocBlock_of_free {m : Nat → Nat} (h : 0 < freePages m) :
    ∃ b, allocBlock m = (markBlock m b, b) ∧ b < 256 ∧ isSet m b = false := by
  rcases (freePages_pos_iff m).1 h with ⟨a, ha, hp⟩
  cases hl : lowestFree m with
  | none => have := lowestFree_none hl a ha; rw [hp] at this; cases this
  | some b =>
    refine ⟨b, ?_, lowestFree_some hl⟩
    simp [allocBlock, hl]

theorem isSet_full (c : Nat) : isSet (fun _ => 255) c = true := by
  simp only [isSet, mapBit]
  have h : c % 8 < 8 := Nat.mod_lt _ (by decide)
  have : (255 : Nat) = 2 ^ 8 - 1 := by decide
  rw [this, Nat.testBit_two_pow_sub_one]
  simpa using h

theorem isSet_initMapLoop (k : Nat) : ∀ (m : Nat → Nat) (c : Nat),
    isSet (initMapLoop m k) c = (isSet m c && !decide (1 ≤ c ∧ c ≤ k)) := by
  induction k with
  | zero =>
    intro m c
    have : ¬ (1 ≤ c ∧ c ≤ 0) := by omega
    rw [initMapLoop, decide_eq_false this]
    simp
  | succ k ih =>
    intro m c
    rw [initMapLoop, ih, isSet_freeBlock]
    by_cases h1 : c = k + 1
    · subst h1; simp
    · by_cases h2 : 1 ≤ c ∧ c ≤ k
      · have : 1 ≤ c ∧ c ≤ k + 1 := by omega
        simp [h1, h2, this]
      · have : ¬ (1 ≤ c ∧ c ≤ k + 1) := by omega
        simp [h1, h2, this]

theorem freePages_initMapLoop (k : Nat) : ∀ (m : Nat → Nat), k ≤ 255 →
    (∀ c, 1 ≤ c → c ≤ k → isSet m c = true) →
    freePages (initMapLoop m k) = freePages m + k := by
  induction k with
  | zero => intro m _ _; simp [initMapLoop]
  | succ k ih =>
    intro m hk hset
    rw [initMapLoop, ih _ (by omega), freePages_freeBlock (by omega) (hset _ (by omega) (by omega))]
    · omega
    · intro c h1 h2
      rw [isSet_freeBlock, hset c h1 (by omega)]
      have : c ≠ k + 1 := by omega
      simp [this]

theorem freePages_full : freePages (fun _ => 255) = 0 := by
  unfold freePages
  rw [List.countP_eq_zero]
  intro a _
  simp [isSet_full]

/-- After `initMap(last)`: page 0 is reserved, exactly the pages 1 to `last`
are free, and `freeCount()` is `last`. -/
theorem initMap_spec (g : Shared) (last : Nat) (hl : last ≤ 255) :
    isSet (initMap g last).map 0 = true ∧ freePages (initMap g last).map = last ∧
    freeCount (initMap g last) = last ∧
    ∀ c, isSet (initMap g last).map c = !decide (1 ≤ c ∧ c ≤ last) := by
  have h1 : ∀ c, isSet (initMap g last).map c = !decide (1 ≤ c ∧ c ≤ last) := by
    intro c
    simp only [initMap]
    rw [isSet_initMapLoop, isSet_full]
    simp
  have h2 : freePages (initMap g last).map = last := by
    simp only [initMap]
    rw [freePages_initMapLoop last _ hl (fun c _ _ => isSet_full c), freePages_full]
    simp
  refine ⟨?_, h2, ?_, h1⟩
  · rw [h1]; simp
  · unfold freeCount
    rw [h2]
    exact Nat.mod_eq_of_lt (by omega)

/-! ## Windows -/

@[simp] theorem offsetOf_tail : offsetOf blockLayout .tail = 62 := by decide

@[simp] theorem offsetOf_next : offsetOf blockLayout .next = 63 := by decide

theorem load0_bnum (g : Shared) (blk : Nat) : (load g 0 blk).bufs0.bnum = blk := by
  unfold load
  by_cases h : blk = g.bufs0.bnum
  · simp [h]
  · simp [h]

theorem load0_map (g : Shared) (blk : Nat) : (load g 0 blk).map = g.map := by
  unfold load
  by_cases h : blk = g.bufs0.bnum
  · simp [h]
  · simp [h]

/-- Loading the write window changes no page as seen through `fetchByte`. -/
theorem fetchByte_load0 (g : Shared) (blk x off : Nat) :
    fetchByte (load g 0 blk) x off = fetchByte g x off := by
  unfold load
  by_cases h : blk = g.bufs0.bnum
  · simp [h]
  · simp only [if_true, if_neg h, fetchByte, writePage, setAt]
    by_cases hx : x = blk
    · subst hx
      simp [h]
    · by_cases hx2 : x = g.bufs0.bnum
      · subst hx2
        simp [hx, Ne.symm hx]
      · simp [hx, hx2]

theorem load0_bytes (g : Shared) (blk off : Nat) :
    (load g 0 blk).bufs0.bytes off = fetchByte g blk off := by
  rw [← fetchByte_load0 g blk blk off]
  simp [fetchByte, load0_bnum]

theorem fetchByte_load1 (g : Shared) (blk x off : Nat) :
    fetchByte (load g 1 blk) x off = fetchByte g x off := by
  unfold load
  by_cases h : blk = g.bufs1.bnum
  · simp [h]
  · simp [h, fetchByte]

theorem load1_map (g : Shared) (blk : Nat) : (load g 1 blk).map = g.map := by
  unfold load
  by_cases h : blk = g.bufs1.bnum
  · simp [h]
  · simp [h]

/-! ## The effect of `put` on the pages -/

theorem load0_chip (g : Shared) (blk x off : Nat) (hx : x ≠ blk) :
    (load g 0 blk).chip x off = fetchByte g x off := by
  rw [← fetchByte_load0 g blk x off]
  simp [fetchByte, load0_bnum, hx]

/-- The pages after the write window was loaded with page `blk` and its bytes
edited by `f`: page `blk` is edited, the others are as before. -/
theorem fetchByte_edit (g e : Shared) (blk : Nat) (f : (Nat → Nat) → Nat → Nat)
    (hc : e.chip = (load g 0 blk).chip) (hn : e.bufs0.bnum = (load g 0 blk).bufs0.bnum)
    (hb : e.bufs0.bytes = f (load g 0 blk).bufs0.bytes) (x off : Nat) :
    fetchByte e x off = if x = blk then f (fun o => fetchByte g blk o) off
      else fetchByte g x off := by
  have hbytes : (load g 0 blk).bufs0.bytes = fun o => fetchByte g blk o :=
    funext (load0_bytes g blk)
  simp only [fetchByte, hc, hn, hb, load0_bnum]
  by_cases hx : x = blk
  · simp only [hx, if_true, hbytes]
    rfl
  · rw [if_neg hx, if_neg hx]
    exact load0_chip g blk x off hx

theorem load0_tail (g : Shared) (blk : Nat) :
    (load g 0 blk).bufs0.tail = fetchByte g blk 62 := by
  simp [Block.tail, load0_bytes]

/-- A `put` into a last page with room stores the byte at offset `tail` and
increments `tail`; nothing else changes. -/
theorem put_room (g : Shared) (h : Stash) (c : Nat) (ht : fetchByte g h.last 62 < 62) :
    (Stash.put g h c).2 = h ∧ (Stash.put g h c).1.map = g.map ∧
    ∀ x off, fetchByte (Stash.put g h c).1 x off =
      if x = h.last then
        (if off = 62 then fetchByte g h.last 62 + 1
         else if off = fetchByte g h.last 62 then c else fetchByte g x off)
      else fetchByte g x off := by
  have ht2 : (load g 0 h.last).bufs0.tail < 62 := by rw [load0_tail]; exact ht
  have hc : (Stash.put g h c).1.chip = (load g 0 h.last).chip := by
    simp only [Stash.put, if_pos ht2]
  have hn : (Stash.put g h c).1.bufs0.bnum = (load g 0 h.last).bufs0.bnum := by
    simp only [Stash.put, if_pos ht2]
    rfl
  have hb : (Stash.put g h c).1.bufs0.bytes =
      (fun b => setAt (setAt b (fetchByte g h.last 62) c) 62 (fetchByte g h.last 62 + 1))
        (load g 0 h.last).bufs0.bytes := by
    simp only [Stash.put, if_pos ht2]
    simp [Block.setTail, Block.setByte, load0_tail]
  refine ⟨by simp only [Stash.put, if_pos ht2], ?_, ?_⟩
  · simp only [Stash.put, if_pos ht2]
    exact load0_map g _
  intro x off
  rw [fetchByte_edit g _ h.last
    (fun b => setAt (setAt b (fetchByte g h.last 62) c) 62 (fetchByte g h.last 62 + 1)) hc hn hb]
  by_cases hx : x = h.last
  · subst hx
    simp only [if_true, setAt]
  · simp [hx]

/-- A `put` into a full last page with a free page `q`: `q` is marked, linked
from the old last page, becomes `last` and holds the byte. -/
theorem put_full_ok (g : Shared) (h : Stash) (c q : Nat) (ht : 62 ≤ fetchByte g h.last 62)
    (ha : allocBlock g.map = (markBlock g.map q, q)) (hq : q ≠ 0) :
    (Stash.put g h c).2 = { h with last := q, count := (h.count + 1) % 256 } ∧
    (Stash.put g h c).1.map = markBlock g.map q ∧
    fetchByte (Stash.put g h c).1 q 62 = 1 ∧
    fetchByte (Stash.put g h c).1 q 0 = c ∧
    fetchByte (Stash.put g h c).1 q 63 = 0 ∧
    ∀ x off, x ≠ q → fetchByte (Stash.put g h c).1 x off =
      if x = h.last ∧ off = 63 then q else fetchByte g x off := by
  have ht2 : ¬ (load g 0 h.last).bufs0.tail < 62 := by rw [load0_tail]; omega
  obtain ⟨e1, he1⟩ : ∃ e1 : Shared, e1 = Shared.mk (load g 0 h.last).chip
      ((load g 0 h.last).bufs0.setNext q) (load g 0 h.last).bufs1 (markBlock g.map q) :=
    ⟨_, rfl⟩
  have hc : (Stash.put g h c).1.chip = (load e1 0 q).chip := by
    simp only [Stash.put, if_neg ht2, load0_map, ha, if_neg hq, he1]
  have hn : (Stash.put g h c).1.bufs0.bnum = (load e1 0 q).bufs0.bnum := by
    simp only [Stash.put, if_neg ht2, load0_map, ha, if_neg hq, he1]
    rfl
  have hb : (Stash.put g h c).1.bufs0.bytes =
      (fun b => setAt (setAt (setAt b 63 0) 0 c) 62 1) (load e1 0 q).bufs0.bytes := by
    simp only [Stash.put, if_neg ht2, load0_map, ha, if_neg hq, he1]
    simp [Block.setTail, Block.setByte, Block.setNext]
  have hv := fetchByte_edit e1 _ q (fun b => setAt (setAt (setAt b 63 0) 0 c) 62 1) hc hn hb
  have hv1 : ∀ x off, fetchByte e1 x off =
      if x = h.last then setAt (fun o => fetchByte g h.last o) 63 q off
      else fetchByte g x off := by
    intro x off
    exact fetchByte_edit g e1 h.last (fun b => setAt b 63 q) (by rw [he1]) (by rw [he1]; rfl)
      (by rw [he1]; simp [Block.setNext]) x off
  refine ⟨?_, ?_, ?_, ?_, ?_, ?_⟩
  · simp only [Stash.put, if_neg ht2, load0_map, ha, if_neg hq]
  · simp only [Stash.put, if_neg ht2, load0_map, ha, if_neg hq]
  · rw [hv]; simp [setAt]
  · rw [hv]; simp [setAt]
  · rw [hv]; simp [setAt]
  · intro x off hx
    rw [hv, if_neg hx, hv1]
    by_cases hx2 : x = h.last
    · subst hx2
      by_cases ho : off = 63
      · simp [ho, setAt]
      · simp [ho, setAt]
    · simp [hx2]

/-! ## Chains under changes of the pages -/

/-- A chain stays linked when the `next` bytes of its pages are unchanged. -/
theorem Linked_frame {v w : Nat → Nat → Nat} : ∀ (ps : List Nat) (f l : Nat),
    (∀ p, p ∈ ps → w p 63 = v p 63) → Linked v ps f l → Linked w ps f l
  | [], _, _, _, h => h
  | [p], _, _, hv, h => by
    simp only [Linked] at h ⊢
    rw [hv p (by simp)]
    exact h
  | p :: q :: rest, _, l, hv, h => by
    simp only [Linked] at h ⊢
    refine ⟨h.1, h.2.1, ?_, Linked_frame (q :: rest) q l (fun x hx => hv x (by simp [hx])) h.2.2.2⟩
    rw [hv p (by simp)]
    exact h.2.2.1

/-- In a chain that is not empty, `last` and `first` are pages of the chain, the
`next` of `last` is 0 and no page is page 0. -/
theorem Linked_last {v : Nat → Nat → Nat} : ∀ (ps : List Nat) (f l : Nat),
    ps ≠ [] → Linked v ps f l → l ∈ ps ∧ v l 63 = 0 ∧ f ∈ ps ∧ f ≠ 0 ∧ ∀ p, p ∈ ps → p ≠ 0
  | [], _, _, hne, _ => absurd rfl hne
  | [p], f, l, _, h => by
    simp only [Linked] at h
    obtain ⟨h1, h2, h3, h4⟩ := h
    subst h1 h4
    simp [h2, h3]
  | p :: q :: rest, f, l, _, h => by
    simp only [Linked] at h
    obtain ⟨h1, h2, _, h4⟩ := h
    have ih := Linked_last (q :: rest) q l (by simp) h4
    subst h1
    refine ⟨by simp [ih.1], ih.2.1, by simp, h2, ?_⟩
    intro x hx
    rcases List.mem_cons.1 hx with hx | hx
    · rw [hx]; exact h2
    · exact ih.2.2.2.2 x hx

/-- Linking a fresh page `q` from the last page extends the chain by `q`. -/
theorem Linked_append {v w : Nat → Nat → Nat} (q : Nat) (hq : q ≠ 0) (hwq : w q 63 = 0) :
    ∀ (ps : List Nat) (f l : Nat), ps ≠ [] → ps.Nodup → Linked v ps f l →
      w l 63 = q → (∀ x, x ∈ ps → x ≠ l → w x 63 = v x 63) → Linked w (ps ++ [q]) f q
  | [], _, _, hne, _, _, _, _ => absurd rfl hne
  | [p], f, l, _, _, h, hl, _ => by
    simp only [Linked] at h
    obtain ⟨h1, h2, _, h4⟩ := h
    subst h4
    simp only [List.singleton_append, Linked]
    exact ⟨h1, h2, hl, trivial, hq, hwq, trivial⟩
  | p :: p2 :: rest, f, l, _, hnd, h, hl, hfr => by
    simp only [Linked] at h
    obtain ⟨h1, h2, h3, h4⟩ := h
    have hmem := (Linked_last (p2 :: rest) p2 l (by simp) h4).1
    rw [List.nodup_cons] at hnd
    have hpl : p ≠ l := fun e => hnd.1 (e ▸ hmem)
    have ih := Linked_append q hq hwq (p2 :: rest) p2 l (by simp) hnd.2 h4 hl
      (fun x hx hxl => hfr x (by simp [hx]) hxl)
    simp only [List.cons_append, Linked] at ih ⊢
    refine ⟨h1, h2, ?_, ih⟩
    rw [hfr p (by simp) hpl]
    exact h3

/-- The number of bytes held: 62 for every page but the last, `tail` for it. -/
theorem Holds_length {v : Nat → Nat → Nat} : ∀ (ps : List Nat) (f l : Nat) (d : List Nat),
    ps ≠ [] → Linked v ps f l → Holds v ps d →
      d.length + 62 = 62 * ps.length + v l 62 ∧ v l 62 ≤ 62
  | [], _, _, _, hne, _, _ => absurd rfl hne
  | [p], _, l, d, _, h, hd => by
    simp only [Linked] at h
    simp only [Holds] at hd
    obtain ⟨_, _, _, h4⟩ := h
    subst h4
    simp only [List.length_singleton]
    omega
  | p :: q :: rest, _, l, d, _, h, hd => by
    simp only [Linked] at h
    simp only [Holds] at hd
    have ih := Holds_length (q :: rest) q l (d.drop 62) (by simp) h.2.2.2 hd.2.2
    simp only [List.length_cons, List.length_drop] at ih ⊢
    omega

/-- Storing `c` at offset `tail` of the last page and incrementing `tail`
appends `c` to the bytes held. -/
theorem Holds_append_room {v w : Nat → Nat → Nat} (c : Nat) :
    ∀ (ps : List Nat) (f l : Nat) (d : List Nat), ps ≠ [] → ps.Nodup → Linked v ps f l →
      Holds v ps d → v l 62 < 62 → w l 62 = v l 62 + 1 → w l (v l 62) = c →
      (∀ off, off < 62 → off ≠ v l 62 → w l off = v l off) →
      (∀ x, x ∈ ps → x ≠ l → ∀ off, w x off = v x off) → Holds w ps (d ++ [c])
  | [], _, _, _, hne, _, _, _, _, _, _, _, _ => absurd rfl hne
  | [p], _, l, d, _, _, h, hd, ht, h62, hc, hfr, _ => by
    simp only [Linked] at h
    simp only [Holds] at hd
    obtain ⟨_, _, _, h4⟩ := h
    subst h4
    obtain ⟨hd1, hd2, hd3⟩ := hd
    simp only [Holds, List.length_append, List.length_singleton]
    refine ⟨by rw [h62, hd1], by omega, ?_⟩
    intro j hj
    by_cases hjd : j = d.length
    · subst hjd
      rw [← hd1, hc]
      simp [List.getD_eq_getElem?_getD, hd1]
    · have hj2 : j < d.length := by omega
      rw [hfr j (by omega) (by omega), hd3 j hj2]
      simp [List.getD_eq_getElem?_getD, List.getElem?_append_left hj2]
  | p :: q :: rest, _, l, d, _, hnd, h, hd, ht, h62, hc, hfr, hfr2 => by
    simp only [Linked] at h
    simp only [Holds] at hd
    obtain ⟨_, _, _, h4⟩ := h
    obtain ⟨hd1, hd2, hd3⟩ := hd
    have hmem := (Linked_last (q :: rest) q l (by simp) h4).1
    rw [List.nodup_cons] at hnd
    have hpl : p ≠ l := fun e => hnd.1 (e ▸ hmem)
    have ih := Holds_append_room c (q :: rest) q l (d.drop 62) (by simp) hnd.2 h4 hd3 ht h62 hc
      hfr (fun x hx hxl => hfr2 x (by simp [hx]) hxl)
    simp only [Holds, List.length_append, List.length_singleton]
    refine ⟨by omega, ?_, ?_⟩
    · intro j hj
      rw [hfr2 p (by simp) hpl, hd2 j hj]
      have hj2 : j < d.length := by omega
      simp [List.getD_eq_getElem?_getD, List.getElem?_append_left hj2]
    · rw [List.drop_append_of_le_length hd1]
      exact ih

/-- When the last page is full, a fresh page holding `c` alone appends `c` to
the bytes held. -/
theorem Holds_append_page {v w : Nat → Nat → Nat} (c q : Nat) (hq62 : w q 62 = 1)
    (hq0 : w q 0 = c) :
    ∀ (ps : List Nat) (f l : Nat) (d : List Nat), ps ≠ [] → Linked v ps f l →
      Holds v ps d → 62 ≤ v l 62 →
      (∀ x, x ∈ ps → ∀ off, off < 62 → w x off = v x off) → Holds w (ps ++ [q]) (d ++ [c])
  | [], _, _, _, hne, _, _, _, _ => absurd rfl hne
  | [p], _, l, d, _, h, hd, ht, hfr => by
    simp only [Linked] at h
    simp only [Holds] at hd
    obtain ⟨_, _, _, h4⟩ := h
    subst h4
    obtain ⟨hd1, hd2, hd3⟩ := hd
    have hlen : d.length = 62 := by omega
    have hdrop : (d ++ [c]).drop 62 = [c] := by
      rw [List.drop_append_of_le_length (by omega), List.drop_eq_nil_of_le (by omega)]
      rfl
    simp only [List.singleton_append, Holds, List.length_append, List.length_singleton, hdrop]
    refine ⟨by omega, ?_, hq62, by omega, ?_⟩
    · intro j hj
      have hj2 : j < d.length := by omega
      rw [hfr l (by simp) j hj, hd3 j hj2]
      simp [List.getD_eq_getElem?_getD, List.getElem?_append_left hj2]
    · intro j hj
      have : j = 0 := by omega
      subst this
      simp [hq0]
  | p :: p2 :: rest, _, l, d, _, h, hd, ht, hfr => by
    simp only [Linked] at h
    simp only [Holds] at hd
    obtain ⟨_, _, _, h4⟩ := h
    obtain ⟨hd1, hd2, hd3⟩ := hd
    have ih := Holds_append_page c q hq62 hq0 (p2 :: rest) p2 l (d.drop 62) (by simp) h4 hd3 ht
      (fun x hx => hfr x (by simp [hx]))
    simp only [List.cons_append, Holds, List.length_append, List.length_singleton] at ih ⊢
    refine ⟨by omega, ?_, ?_⟩
    · intro j hj
      have hj2 : j < d.length := by omega
      rw [hfr p (by simp) j hj, hd2 j hj]
      simp [List.getD_eq_getElem?_getD, List.getElem?_append_left hj2]
    · rw [List.drop_append_of_le_length hd1]
      exact ih

/-! ## `create`, `save`, `open`, `get`, `size` -/

/-- Without a free page `create` changes nothing and returns 0. -/
theorem create_fail (g : Shared) (h : Stash) (ha : allocBlock g.map = (g.map, 0)) :
    Stash.create g h = (g, h, 0) := by
  simp only [Stash.create, ha, if_true]

/-- With a free page `q`, `create` marks `q`, attaches the handle to it and
leaves it empty (`tail = 0`, `next = 0`); the other pages are unchanged. -/
theorem create_ok (g : Shared) (h : Stash) (q : Nat)
    (ha : allocBlock g.map = (markBlock g.map q, q)) (hq : q ≠ 0) :
    (Stash.create g h).2.2 = q ∧
    (Stash.create g h).2.1 = { count := 1, first := q, last := q, curr := q, offs := 0 } ∧
    (Stash.create g h).1.map = markBlock g.map q ∧
    fetchByte (Stash.create g h).1 q 62 = 0 ∧ fetchByte (Stash.create g h).1 q 63 = 0 ∧
    ∀ x off, x ≠ q → fetchByte (Stash.create g h).1 x off = fetchByte g x off := by
  obtain ⟨e1, he1⟩ : ∃ e1 : Shared, e1 = Shared.mk g.chip g.bufs0 g.bufs1 (markBlock g.map q) :=
    ⟨_, rfl⟩
  have hc : (Stash.create g h).1.chip = (load e1 0 q).chip := by
    simp only [Stash.create, ha, if_neg hq, he1]
  have hn : (Stash.create g h).1.bufs0.bnum = (load e1 0 q).bufs0.bnum := by
    simp only [Stash.create, ha, if_neg hq, he1]
    rfl
  have hb : (Stash.create g h).1.bufs0.bytes =
      (fun b => setAt (setAt b 62 0) 63 0) (load e1 0 q).bufs0.bytes := by
    simp only [Stash.create, ha, if_neg hq, he1]
    simp [Block.setTail, Block.setNext]
  have hv := fetchByte_edit e1 _ q (fun b => setAt (setAt b 62 0) 63 0) hc hn hb
  refine ⟨?_, ?_, ?_, ?_, ?_, ?_⟩
  · simp only [Stash.create, ha, if_neg hq]
  · simp only [Stash.create, ha, if_neg hq]
  · simp only [Stash.create, ha, if_neg hq, load0_map]
  · rw [hv]; simp [setAt]
  · rw [hv]; simp [setAt]
  · intro x off hx
    rw [hv, if_neg hx, he1]
    rfl

/-- The call `save` changes neither the handle, nor the bitmap, nor any page as seen
through `fetchByte`. -/
theorem save_spec (g : Shared) (h : Stash) :
    (Stash.save g h).2 = h ∧ (Stash.save g h).1.map = g.map ∧
    ∀ x off, fetchByte (Stash.save g h).1 x off = fetchByte g x off := by
  refine ⟨rfl, ?_, ?_⟩
  · simp only [Stash.save, load0_map]
  · intro x off
    rw [← fetchByte_load0 g h.last x off]
    simp only [Stash.save, fetchByte, writePage, setAt]
    by_cases hx : x = (load g 0 h.last).bufs0.bnum
    · simp [hx]
    · simp [hx]

/-- After `save` the page store holds every page as `fetchByte` saw it. -/
theorem save_flushed (g : Shared) (h : Stash) (x off : Nat) :
    (Stash.save g h).1.chip x off = fetchByte g x off := by
  rw [← fetchByte_load0 g h.last x off]
  simp only [Stash.save, fetchByte, writePage, setAt]
  by_cases hx : x = (load g 0 h.last).bufs0.bnum
  · simp [hx]
  · simp [hx]

theorem load1_chip (g : Shared) (blk : Nat) : (load g 1 blk).chip = g.chip := by
  unfold load
  by_cases h : blk = g.bufs1.bnum
  · simp [h]
  · simp [h]

theorem load1_read (g : Shared) (blk : Nat)
    (hcoh : g.bufs1.bnum = blk → ∀ off, g.bufs1.bytes off = g.chip blk off) :
    (load g 1 blk).bufs1.bnum = blk ∧
    ∀ off, (load g 1 blk).bufs1.bytes off = g.chip blk off := by
  unfold load
  by_cases h : blk = g.bufs1.bnum
  · simp only [if_pos h, Nat.one_ne_zero, if_false]
    exact ⟨h.symm, hcoh h.symm⟩
  · simp [h]

/-- The call `get` in terms of the page store, when the read window agrees with
it. -/
theorem get_eq (g : Shared) (h : Stash)
    (hcoh : g.bufs1.bnum = h.curr → ∀ off, g.bufs1.bytes off = g.chip h.curr off) :
    Stash.get g h =
      if g.chip h.curr 63 = 0 ∧ g.chip h.curr 62 ≤ h.offs then
        (load g 1 h.curr, h, 0)
      else if 62 ≤ (h.offs + 1) % 256 ∧ g.chip h.curr 63 ≠ 0 then
        (load g 1 h.curr, { h with curr := g.chip h.curr 63, offs := 0 },
          g.chip h.curr h.offs)
      else (load g 1 h.curr, { h with offs := (h.offs + 1) % 256 }, g.chip h.curr h.offs) := by
  have hr := load1_read g h.curr hcoh
  simp only [Stash.get, Block.next, Block.tail, offsetOf_next, offsetOf_tail, hr.2]

theorem get_frame (g : Shared) (h : Stash) :
    (Stash.get g h).2.1.first = h.first ∧ (Stash.get g h).1.map = g.map ∧
    (Stash.get g h).1.chip = g.chip ∧
    ∀ x off, fetchByte (Stash.get g h).1 x off = fetchByte g x off := by
  simp only [Stash.get]
  split
  · exact ⟨rfl, load1_map g _, load1_chip g _, fetchByte_load1 g _⟩
  · split
    · exact ⟨rfl, load1_map g _, load1_chip g _, fetchByte_load1 g _⟩
    · exact ⟨rfl, load1_map g _, load1_chip g _, fetchByte_load1 g _⟩

theorem getN_frame : ∀ (n : Nat) (g : Shared) (h : Stash),
    (Stash.getN n g h).2.2.first = h.first ∧ (Stash.getN n g h).2.1.map = g.map ∧
    ∀ x off, fetchByte (Stash.getN n g h).2.1 x off = fetchByte g x off
  | 0, _, _ => ⟨rfl, rfl, fun _ _ => rfl⟩
  | n + 1, g, h => by
    have h1 := get_frame g h
    have h2 := getN_frame n (Stash.get g h).1 (Stash.get g h).2.1
    simp only [Stash.getN]
    refine ⟨h2.1.trans h1.1, h2.2.1.trans h1.2.1, ?_⟩
    intro x off
    rw [h2.2.2, h1.2.2.2]

/-! ## Reading a chain -/

/-- One `get` on a stash being read returns the next byte of the data, and the
stash is again being read, one byte further. -/
theorem get_step (g : Shared) (h : Stash) : ∀ (ps data : List Nat), Reading g h ps data →
    h.offs < data.length →
    (Stash.get g h).2.2 = data.getD h.offs 0 ∧
    ∃ ps1 data1, Reading (Stash.get g h).1 (Stash.get g h).2.1 ps1 data1 ∧
      data1.drop (Stash.get g h).2.1.offs = data.drop (h.offs + 1)
  | [], _, hr, _ => by
    obtain ⟨l, _, _, hne, _⟩ := hr
    exact absurd rfl hne
  | [p], data, hr, ho => by
    obtain ⟨l, hl, hd, hne, hnd, hle, h62, hcoh⟩ := hr
    simp only [Linked] at hl
    simp only [Holds] at hd
    obtain ⟨hl1, hl2, hl3, hl4⟩ := hl
    obtain ⟨hd1, hd2, hd3⟩ := hd
    have hload := load1_read g h.curr hcoh
    have hchip := load1_chip g h.curr
    have hmod : (h.offs + 1) % 256 = h.offs + 1 := Nat.mod_eq_of_lt (by omega)
    have hget : Stash.get g h =
        (load g 1 h.curr, { h with offs := h.offs + 1 }, g.chip h.curr h.offs) := by
      rw [get_eq g h hcoh, hl1, hl3, hd1, hmod]
      rw [if_neg (by omega), if_neg (by simp)]
    rw [hget]
    refine ⟨by rw [hl1]; exact hd3 _ ho, [p], data, ⟨l, ?_, ?_, hne, hnd, ?_, ?_, ?_⟩, rfl⟩
    · simp only [hchip, Linked]
      exact ⟨hl1, hl2, hl3, hl4⟩
    · simp only [hchip, Holds]
      exact ⟨hd1, hd2, hd3⟩
    · show h.offs + 1 ≤ data.length
      omega
    · intro hlen
      simp at hlen
    · intro _ off
      show (load g 1 h.curr).bufs1.bytes off = (load g 1 h.curr).chip h.curr off
      rw [hload.2, hchip]
  | p :: q :: rest, data, hr, ho => by
    obtain ⟨l, hl, hd, hne, hnd, hle, h62, hcoh⟩ := hr
    simp only [Linked] at hl
    simp only [Holds] at hd
    obtain ⟨hl1, hl2, hl3, hl4⟩ := hl
    obtain ⟨hd1, hd2, hd3⟩ := hd
    have ho62 : h.offs < 62 := h62 (by simp)
    have hq0 : q ≠ 0 := (Linked_last (q :: rest) q l (by simp) hl4).2.2.2.1
    have hload := load1_read g h.curr hcoh
    have hchip := load1_chip g h.curr
    have hmod : (h.offs + 1) % 256 = h.offs + 1 := Nat.mod_eq_of_lt (by omega)
    rw [List.nodup_cons] at hnd
    have hpq : p ≠ q := fun e => hnd.1 (by simp [e])
    by_cases hend : 62 ≤ h.offs + 1
    · have hget : Stash.get g h =
          (load g 1 h.curr, { h with curr := q, offs := 0 }, g.chip h.curr h.offs) := by
        rw [get_eq g h hcoh, hl1, hl3, hmod]
        rw [if_neg (by simp [hq0]), if_pos ⟨hend, hq0⟩]
      rw [hget]
      refine ⟨by rw [hl1]; exact hd2 _ ho62, q :: rest, data.drop 62,
        ⟨l, ?_, ?_, by simp, hnd.2, ?_, ?_, ?_⟩, ?_⟩
      · rw [hchip]; exact hl4
      · rw [hchip]; exact hd3
      · show 0 ≤ _
        omega
      · intro _
        show 0 < 62
        omega
      · intro hb
        exfalso
        have : (load g 1 h.curr).bufs1.bnum = q := hb
        rw [hload.1, hl1] at this
        exact hpq this
      · show (data.drop 62).drop 0 = data.drop (h.offs + 1)
        have : h.offs + 1 = 62 := by omega
        rw [this]
        rfl
    · have hget : Stash.get g h =
          (load g 1 h.curr, { h with offs := h.offs + 1 }, g.chip h.curr h.offs) := by
        rw [get_eq g h hcoh, hl1, hl3, hmod]
        rw [if_neg (by simp [hq0]), if_neg (by omega)]
      rw [hget]
      refine ⟨by rw [hl1]; exact hd2 _ ho62, p :: q :: rest, data,
        ⟨l, ?_, ?_, hne, List.nodup_cons.2 hnd, ?_, ?_, ?_⟩, rfl⟩
      · simp only [hchip, Linked]
        exact ⟨hl1, hl2, hl3, hl4⟩
      · simp only [hchip, Holds]
        exact ⟨hd1, hd2, hd3⟩
      · show h.offs + 1 ≤ data.length
        omega
      · intro _
        show h.offs + 1 < 62
        omega
      · intro _ off
        show (load g 1 h.curr).bufs1.bytes off = (load g 1 h.curr).chip h.curr off
        rw [hload.2, hchip]

/-- As many `get` as there are bytes left return the bytes left. -/
theorem getN_reads : ∀ (n : Nat) (g : Shared) (h : Stash) (ps data : List Nat),
    Reading g h ps data → (data.drop h.offs).length = n →
    (Stash.getN n g h).1 = data.drop h.offs
  | 0, g, h, ps, data, _, hn => by
    simp only [Stash.getN]
    exact (List.length_eq_zero.1 hn).symm
  | n + 1, g, h, ps, data, hr, hn => by
    have ho : h.offs < data.length := by
      simp only [List.length_drop] at hn
      omega
    obtain ⟨hb, ps1, data1, hr1, hrest⟩ := get_step g h ps data hr ho
    have hlen : (data1.drop (Stash.get g h).2.1.offs).length = n := by
      rw [hrest]
      simp only [List.length_drop] at hn ⊢
      omega
    have ih := getN_reads n _ _ ps1 data1 hr1 hlen
    simp only [Stash.getN]
    rw [ih, hrest, hb, List.getD_eq_getElem?_getD, List.getElem?_eq_getElem ho]
    simp

/-- The walk of `size` over a chain returns the number of bytes it holds. -/
theorem sizeWalk_chain (g : Shared) : ∀ (ps : List Nat) (fuel f l : Nat) (d : List Nat),
    ps ≠ [] → ps.length ≤ fuel → Linked (fetchByte g) ps f l → Holds (fetchByte g) ps d →
    Stash.sizeWalk g fuel f = some d.length
  | [], _, _, _, _, hne, _, _, _ => absurd rfl hne
  | [p], fuel, f, l, d, _, hfuel, hl, hd => by
    simp only [Linked] at hl
    simp only [Holds] at hd
    obtain ⟨k, rfl⟩ : ∃ k, fuel = k + 1 := ⟨fuel - 1, by simp at hfuel; omega⟩
    simp only [Stash.sizeWalk, offsetOf_next, offsetOf_tail, hl.1, hl.2.2.1, if_true, hd.1]
  | p :: q :: rest, fuel, f, l, d, _, hfuel, hl, hd => by
    simp only [Linked] at hl
    simp only [Holds] at hd
    obtain ⟨k, rfl⟩ : ∃ k, fuel = k + 1 := ⟨fuel - 1, by simp at hfuel; omega⟩
    have hq0 : q ≠ 0 := (Linked_last (q :: rest) q l (by simp) hl.2.2.2).2.2.2.1
    have ih := sizeWalk_chain g (q :: rest) k q l (d.drop 62) (by simp)
      (by simp at hfuel ⊢; omega) hl.2.2.2 hd.2.2
    simp only [Stash.sizeWalk, offsetOf_next, hl.1, hl.2.2.1, if_neg hq0, ih, Option.map_some',
      List.length_drop]
    congr 1
    omega

/-! ## Writing a chain -/

theorem pagesNeeded_le (n total : Nat) :
    pagesNeeded n ≤ total ↔ 1 ≤ total ∧ (n + 61) / 62 ≤ total := by
  unfold pagesNeeded
  exact Nat.max_le

theorem put_first (g : Shared) (h : Stash) (c : Nat) : (Stash.put g h c).2.first = h.first := by
  simp only [Stash.put]
  split
  · rfl
  · split
    · rfl
    · rfl

theorem putAll_cons (g : Shared) (h : Stash) (c : Nat) (cs : List Nat) :
    Stash.putAll g h (c :: cs) = Stash.putAll (Stash.put g h c).1 (Stash.put g h c).2 cs := rfl

theorem putAll_first : ∀ (cs : List Nat) (g : Shared) (h : Stash),
    (Stash.putAll g h cs).2.first = h.first
  | [], _, _ => rfl
  | c :: cs, g, h => by
    rw [putAll_cons, putAll_first cs, put_first]

theorem Writing_congr {g e : Shared} {h k : Stash} {ps data : List Nat} {total : Nat}
    (hv : ∀ x off, fetchByte e x off = fetchByte g x off) (hm : e.map = g.map)
    (hf : k.first = h.first) (hl : k.last = h.last) (hw : Writing g h ps data total) :
    Writing e k ps data total := by
  have : fetchByte e = fetchByte g := funext fun x => funext (hv x)
  unfold Writing at hw ⊢
  rw [this, hm, hf, hl]
  exact hw

/-- A `put` on a stash being written, with a free page at hand should the last
page be full, appends the byte. -/
theorem put_writing (g : Shared) (h : Stash) (c : Nat) (ps data : List Nat) (total : Nat)
    (hw : Writing g h ps data total) (hroom : pagesNeeded (data.length + 1) ≤ total) :
    ∃ ps1, Writing (Stash.put g h c).1 (Stash.put g h c).2 ps1 (data ++ [c]) total := by
  obtain ⟨hl, hd, hne, hnd, hset, h0, hcount⟩ := hw
  obtain ⟨hlmem, hl63, _, _, _⟩ := Linked_last ps h.first h.last hne hl
  obtain ⟨hlen, ht62⟩ := Holds_length ps h.first h.last data hne hl hd
  by_cases ht : fetchByte g h.last 62 < 62
  · obtain ⟨e1, e2, e3⟩ := put_room g h c ht
    refine ⟨ps, ?_, ?_, hne, hnd, ?_, ?_, ?_⟩
    · rw [e1]
      apply Linked_frame ps _ _ _ hl
      intro p _
      rw [e3]
      by_cases hp : p = h.last
      · rw [if_pos hp, if_neg (by omega), if_neg (by omega)]
      · rw [if_neg hp]
    · apply Holds_append_room c ps h.first h.last data hne hnd hl hd ht
      · rw [e3]; simp
      · rw [e3]
        rw [if_pos rfl, if_neg (by omega), if_pos rfl]
      · intro off _ ho
        rw [e3, if_pos rfl, if_neg (by omega), if_neg ho]
      · intro x _ hx off
        rw [e3, if_neg hx]
    · rw [e2]; exact hset
    · rw [e2]; exact h0
    · rw [e2]; exact hcount
  · have hfull : 62 ≤ fetchByte g h.last 62 := by omega
    have hneed := (pagesNeeded_le _ _).1 hroom
    have hpos : 0 < freePages g.map := by omega
    obtain ⟨q, ha, hq256, hqfree⟩ := allocBlock_of_free hpos
    have hq0 : q ≠ 0 := by
      intro e
      rw [e, h0] at hqfree
      cases hqfree
    have hqps : q ∉ ps := by
      intro hmem
      rw [(hset q hmem).2] at hqfree
      cases hqfree
    obtain ⟨e1, e2, e3, e4, e5, e6⟩ := put_full_ok g h c q hfull ha hq0
    refine ⟨ps ++ [q], ?_, ?_, by simp, ?_, ?_, ?_, ?_⟩
    · rw [e1]
      apply Linked_append q hq0 e5 ps h.first h.last hne hnd hl
      · rw [e6 _ _ (fun e => hqps (e ▸ hlmem))]
        simp
      · intro x hx hxl
        rw [e6 _ _ (fun e => hqps (e ▸ hx))]
        simp [hxl]
    · apply Holds_append_page c q e3 e4 ps h.first h.last data hne hl hd hfull
      intro x hx off hoff
      rw [e6 _ _ (fun e => hqps (e ▸ hx))]
      have : off ≠ 63 := by omega
      simp [this]
    · rw [List.nodup_append]
      refine ⟨hnd, by simp, ?_⟩
      intro x hx hxq
      simp only [List.mem_singleton] at hxq
      exact hqps (hxq ▸ hx)
    · intro p hp
      rw [e2, isSet_markBlock]
      rcases List.mem_append.1 hp with hp | hp
      · exact ⟨(hset p hp).1, by simp [(hset p hp).2]⟩
      · simp only [List.mem_singleton] at hp
        subst hp
        exact ⟨hq256, by simp⟩
    · rw [e2, isSet_markBlock, h0]
      rfl
    · rw [e2]
      have := freePages_markBlock hq256 hqfree
      simp only [List.length_append, List.length_singleton]
      omega

/-- The `put` of every byte of `cs` appends `cs`, given pages enough for all. -/
theorem putAll_writing : ∀ (cs : List Nat) (g : Shared) (h : Stash) (ps data : List Nat)
    (total : Nat), Writing g h ps data total → pagesNeeded (data.length + cs.length) ≤ total →
    ∃ ps1, Writing (Stash.putAll g h cs).1 (Stash.putAll g h cs).2 ps1 (data ++ cs) total
  | [], g, h, ps, data, total, hw, _ => ⟨ps, by simpa [Stash.putAll] using hw⟩
  | c :: cs, g, h, ps, data, total, hw, hroom => by
    have hroom1 : pagesNeeded (data.length + 1) ≤ total := by
      rw [pagesNeeded_le] at hroom ⊢
      simp only [List.length_cons] at hroom
      omega
    obtain ⟨ps1, hw1⟩ := put_writing g h c ps data total hw hroom1
    have hroom2 : pagesNeeded ((data ++ [c]).length + cs.length) ≤ total := by
      have : (data ++ [c]).length + cs.length = data.length + (c :: cs).length := by
        simp only [List.length_append, List.length_cons, List.length_nil]
        omega
      rw [this]
      exact hroom
    obtain ⟨ps2, hw2⟩ := putAll_writing cs _ _ ps1 (data ++ [c]) total hw1 hroom2
    refine ⟨ps2, ?_⟩
    rw [putAll_cons]
    simpa using hw2

/-- A successful `create` starts a stash being written, holding no byte. -/
theorem create_writing (g : Shared) (h : Stash) (h0 : isSet g.map 0 = true)
    (hfree : 0 < freePages g.map) :
    (Stash.create g h).2.2 ≠ 0 ∧ (Stash.create g h).2.1.first = (Stash.create g h).2.2 ∧
    Writing (Stash.create g h).1 (Stash.create g h).2.1 [(Stash.create g h).2.2] []
      (freePages g.map) := by
  obtain ⟨q, ha, hq256, hqfree⟩ := allocBlock_of_free hfree
  have hq0 : q ≠ 0 := by
    intro e
    rw [e, h0] at hqfree
    cases hqfree
  obtain ⟨e1, e2, e3, e4, e5, _⟩ := create_ok g h q ha hq0
  rw [e1, e2]
  refine ⟨hq0, rfl, ?_, ?_, by simp, by simp, ?_, ?_, ?_⟩
  · exact ⟨rfl, hq0, e5, rfl⟩
  · exact ⟨by simpa using e4, by simp, by simp⟩
  · intro p hp
    simp only [List.mem_singleton] at hp
    subst hp
    rw [e3, isSet_markBlock]
    exact ⟨hq256, by simp⟩
  · rw [e3, isSet_markBlock, h0]
    rfl
  · rw [e3]
    have := freePages_markBlock hq256 hqfree
    simp only [List.length_singleton]
    omega

/-- C1: when page 0 is reserved and the free pages suffice for `data`
(one page per 62 bytes, at least one), `create` succeeds and, after `put` of
every byte and `save`, `open` of the page index returned by `create` followed
by as many `get` as there are bytes returns `data`, and `size` is the number of
bytes. -/
theorem stash_round_trip (g : Shared) (h r : Stash) (data : List Nat)
    (h0 : isSet g.map 0 = true) (hfree : pagesNeeded data.length ≤ freeCount g) :
    (roundTrip g h r data).1 ≠ 0 ∧
    (roundTrip g h r data).2 = (data, some data.length) := by
  have hle := freePages_le g.map h0
  have hfc : freeCount g = freePages g.map := Nat.mod_eq_of_lt (by omega)
  rw [hfc] at hfree
  have hneed := (pagesNeeded_le _ _).1 hfree
  obtain ⟨hfd, hfirst, hw1⟩ := create_writing g h h0 (by omega)
  obtain ⟨ps, hw2⟩ := putAll_writing data _ _ _ [] _ hw1 (by simpa using hfree)
  simp only [List.nil_append] at hw2
  obtain ⟨w, hwdef⟩ : ∃ w, w = Stash.putAll (Stash.create g h).1 (Stash.create g h).2.1 data :=
    ⟨_, rfl⟩
  rw [← hwdef] at hw2
  have hs := save_spec w.1 w.2
  have hw3 := Writing_congr hs.2.2 hs.2.1 (congrArg (fun k => k.first) hs.1)
    (congrArg (fun k => k.last) hs.1) hw2
  obtain ⟨hl, hd, hne, hnd, hset, _, hcount⟩ := hw3
  have hf3 : (Stash.save w.1 w.2).2.first = (Stash.create g h).2.2 := by
    rw [hs.1, hwdef, putAll_first, hfirst]
  rw [hf3] at hl
  have hflush : (Stash.save w.1 w.2).1.chip = fetchByte (Stash.save w.1 w.2).1 := by
    funext x off
    rw [save_flushed, hs.2.2]
  obtain ⟨s, hsdef⟩ : ∃ s, s = (Stash.save w.1 w.2).1 := ⟨_, rfl⟩
  rw [← hsdef] at hl hd hflush
  obtain ⟨fd, hfddef⟩ : ∃ fd, fd = (Stash.create g h).2.2 := ⟨_, rfl⟩
  rw [← hfddef] at hl
  have hread : Reading (Stash.openPage s r fd).1 (Stash.openPage s r fd).2.1 ps data := by
    refine ⟨(Stash.save w.1 w.2).2.last, ?_, ?_, hne, hnd, Nat.zero_le _,
      fun _ => by show 0 < 62; omega, ?_⟩
    · show Linked s.chip ps fd _
      rw [hflush]
      exact hl
    · show Holds s.chip ps data
      rw [hflush]
      exact hd
    · intro _ off
      rfl
  have hget := getN_reads data.length _ _ ps data hread (by simp [Stash.openPage])
  have hfr := getN_frame data.length (Stash.openPage s r fd).1 (Stash.openPage s r fd).2.1
  have hview : fetchByte (Stash.getN data.length (Stash.openPage s r fd).1
      (Stash.openPage s r fd).2.1).2.1 = fetchByte s := by
    funext x off
    rw [hfr.2.2]
    rfl
  have hlen := Holds_length ps fd _ data hne hl hd
  have hps : ps.length ≤ 255 := by omega
  have hsize : Stash.size (Stash.getN data.length (Stash.openPage s r fd).1
      (Stash.openPage s r fd).2.1).2.1 (Stash.getN data.length (Stash.openPage s r fd).1
      (Stash.openPage s r fd).2.1).2.2 = some data.length := by
    unfold Stash.size
    have hfirst2 : (Stash.getN data.length (Stash.openPage s r fd).1
        (Stash.openPage s r fd).2.1).2.2.first = fd := hfr.1.trans rfl
    rw [hfirst2]
    rw [sizeWalk_chain _ ps 256 fd _ data hne (by omega) (by rw [hview]; exact hl)
      (by rw [hview]; exact hd)]
    simp only [Option.map_some']
    congr 1
    exact Nat.mod_eq_of_lt (by omega)
  refine ⟨hfd, ?_⟩
  simp only [roundTrip, ← hwdef, ← hsdef, ← hfddef]
  rw [hget, hsize]
  rfl

/-- Witness of C1: 200 bytes, spanning four pages of 62 payload bytes, after
`initMap(5)`. -/
theorem stash_round_trip_witness :
    (roundTrip (initMap startShared 5) startStash startStash (List.range 200)).1 ≠ 0 ∧
    (roundTrip (initMap startShared 5) startStash startStash (List.range 200)).2 =
      (List.range 200, some (List.range 200).length) :=
  stash_round_trip (initMap startShared 5) startStash startStash (List.range 200)
    (initMap_spec startShared 5 (by decide)).1
    (by rw [(initMap_spec startShared 5 (by decide)).2.2.1, List.length_range]; decide)

/-- C3: when page 0 is reserved and every other page is marked allocated,
`create` returns the sentinel 0 and leaves the bitmap, the page memory, the
windows and the handle as they were. -/
theorem create_exhausted (g : Shared) (h : Stash) (h0 : isSet g.map 0 = true)
    (hfull : ∀ b, 1 ≤ b → b < 256 → isSet g.map b = true) :
    Stash.create g h = (g, h, 0) := by
  apply create_fail
  have hall : ∀ b, b < 256 → isSet g.map b = true := by
    intro b hb
    by_cases hb0 : b = 0
    · rw [hb0]; exact h0
    · exact hfull b (by omega) hb
  simp [allocBlock, lowestFree_of_full hall]

/-- Witness of C3: after `initMap(0)` no page is free and `create` fails. -/
theorem create_exhausted_witness :
    Stash.create (initMap startShared 0) startStash = (initMap startShared 0, startStash, 0) :=
  create_exhausted (initMap startShared 0) startStash
    (initMap_spec startShared 0 (by decide)).1
    (fun b h1 _ => by
      rw [(initMap_spec startShared 0 (by decide)).2.2.2 b]
      have : ¬ (1 ≤ b ∧ b ≤ 0) := by omega
      rw [decide_eq_false this]
      rfl)

/-! ## Walks over a chain -/

theorem getElem?_set_cases {α : Type} {l : List α} {i j : Nat} {a b : α}
    (h : (l.set i a)[j]? = some b) : (j = i ∧ b = a ∧ i < l.length) ∨ (j ≠ i ∧ l[j]? = some b) := by
  rw [List.getElem?_set] at h
  by_cases hij : i = j
  · rw [if_pos hij] at h
    split at h
    · rename_i hlt
      exact Or.inl ⟨hij.symm, (Option.some.inj h).symm, hlt⟩
    · cases h
  · rw [if_neg hij] at h
    exact Or.inr ⟨fun e => hij e.symm, h⟩

theorem Attached_role_cases {hs : List Stash} {m : List Role} {i j : Nat} {h : Stash}
    {r r0 : Role} (ha : Attached hs (m.set i r0) j h r) :
    (j = i ∧ r = r0) ∨ (j ≠ i ∧ Attached hs m j h r) := by
  rcases getElem?_set_cases ha.2.1 with ⟨e1, e2, _⟩ | ⟨e1, e2⟩
  · exact Or.inl ⟨e1, e2⟩
  · exact Or.inr ⟨e1, ha.1, e2, ha.2.2⟩

end EtherCard
